import Mathlib

/-!
Verification of the csvlib CSV library (reader.rs / writer.rs / types.rs)
against its natural-language specification.

The development shallowly embeds the library:
* bytes are `Nat` (always < 256 in practice),
* text is `List Char` (the library iterates Rust strings char by char),
* `Row` mirrors `struct Row` from types.rs,
* the parser `read_fields` from reader.rs is embedded over an explicit
  line source (each element is the outcome of one `read_line` call),
* the writer `Writer::write` from writer.rs is embedded as the list of
  bytes it emits.

Rust's UTF-8 machinery (`String::from_utf8_lossy`, `read_line`
validation, `utf8_chunks`) is modelled by an explicit UTF-8
decoder below, written to match the standard (WHATWG / Rust core)
byte-sequence validation: correct continuation ranges per lead byte, no
overlong forms, no surrogates, limit U+10FFFF, and on error the maximal
valid prefix of a sequence is consumed.
-/

/-- Standard UTF-8 encoding of one scalar value, as used by Rust's
`char::encode_utf8` (writer.rs pushes exactly these bytes for each char). -/
def encodeChar (c : Char) : List Nat :=
  let n := c.toNat
  if n < 0x80 then [n]
  else if n < 0x800 then [0xC0 + n / 64, 0x80 + n % 64]
  else if n < 0x10000 then [0xE0 + n / 4096, 0x80 + n / 64 % 64, 0x80 + n % 64]
  else [0xF0 + n / 262144, 0x80 + n / 4096 % 64, 0x80 + n / 64 % 64, 0x80 + n % 64]

/-- UTF-8 encoding of a text, char by char. -/
def encodeStr (s : List Char) : List Nat := s.flatMap encodeChar

/-- One decoded unit: a valid scalar, or the bytes of one maximal invalid
subsequence (as reported by Rust's `Utf8Chunks` / `from_utf8_lossy`). -/
abbrev Utf8Item := Sum Char (List Nat)

/-- Decoder state while inside a multi-byte sequence: the bytes consumed
so far, the number of continuation bytes still expected, the partial
scalar value, and the allowed range for the next continuation byte. -/
structure U8St where
  acc : List Nat
  exp : Nat
  cp : Nat
  lo : Nat
  hi : Nat
deriving DecidableEq

/-- Classify a byte in start position, following the Rust core UTF-8
validation automaton: ASCII, lead classes C2-DF, E0, E1-EC, ED, EE-EF,
F0, F1-F3, F4 (with their special second-byte ranges excluding overlong
forms and surrogates), or an invalid single byte. -/
def u8Start (b : Nat) : Sum Utf8Item U8St :=
  if b < 0x80 then Sum.inl (Sum.inl (Char.ofNat b))
  else if 0xC2 ≤ b ∧ b ≤ 0xDF then Sum.inr ⟨[b], 1, b - 0xC0, 0x80, 0xBF⟩
  else if b = 0xE0 then Sum.inr ⟨[b], 2, 0, 0xA0, 0xBF⟩
  else if 0xE1 ≤ b ∧ b ≤ 0xEC then Sum.inr ⟨[b], 2, b - 0xE0, 0x80, 0xBF⟩
  else if b = 0xED then Sum.inr ⟨[b], 2, 13, 0x80, 0x9F⟩
  else if 0xEE ≤ b ∧ b ≤ 0xEF then Sum.inr ⟨[b], 2, b - 0xE0, 0x80, 0xBF⟩
  else if b = 0xF0 then Sum.inr ⟨[b], 3, 0, 0x90, 0xBF⟩
  else if 0xF1 ≤ b ∧ b ≤ 0xF3 then Sum.inr ⟨[b], 3, b - 0xF0, 0x80, 0xBF⟩
  else if b = 0xF4 then Sum.inr ⟨[b], 3, 4, 0x80, 0x8F⟩
  else Sum.inl (Sum.inr [b])

/-- Run the UTF-8 automaton over the bytes.  On a continuation byte
outside the allowed range, the bytes consumed so far form one maximal
invalid chunk (Rust error_len semantics) and the offending byte is
reclassified in start position; a truncated sequence at end of input is
one invalid chunk. -/
def utf8Go : Option U8St → List Nat → List Utf8Item
  | none, [] => []
  | some st, [] => [Sum.inr st.acc]
  | none, b :: rest =>
    match u8Start b with
    | Sum.inl item => item :: utf8Go none rest
    | Sum.inr st => utf8Go (some st) rest
  | some st, b :: rest =>
    if st.lo ≤ b ∧ b ≤ st.hi then
      if st.exp = 1 then Sum.inl (Char.ofNat (st.cp * 64 + (b - 0x80))) :: utf8Go none rest
      else utf8Go (some ⟨st.acc ++ [b], st.exp - 1, st.cp * 64 + (b - 0x80), 0x80, 0xBF⟩) rest
    else
      Sum.inr st.acc ::
        match u8Start b with
        | Sum.inl item => item :: utf8Go none rest
        | Sum.inr st2 => utf8Go (some st2) rest

/-- Decode a byte list into valid chars and maximal invalid-byte chunks,
as Rust's Utf8Chunks does. -/
def utf8DC (bs : List Nat) : List Utf8Item := utf8Go none bs

/-- The valid chars of a byte list, in order: what Rust's
`utf8_chunks()` exposes through `chunk.valid()`. -/
def validChars (bs : List Nat) : List Char :=
  (utf8DC bs).filterMap fun i => match i with | Sum.inl c => some c | Sum.inr _ => none

/-- Lossy decoding: each invalid chunk becomes one U+FFFD, as in Rust's
`String::from_utf8_lossy`. -/
def utf8Lossy (bs : List Nat) : List Char :=
  (utf8DC bs).map fun i => match i with | Sum.inl c => c | Sum.inr _ => Char.ofNat 0xFFFD

/-- Strict decoding as performed by `BufRead::read_line`: all bytes must
form valid UTF-8, otherwise the read fails with an io error. -/
def decodeChars (bs : List Nat) : Option (List Char) :=
  if (utf8DC bs).all (fun i => match i with | Sum.inl _ => true | Sum.inr _ => false) then
    some (validChars bs)
  else none

theorem char_toNat_valid (c : Char) :
    c.toNat < 0xD800 ∨ (0xE000 ≤ c.toNat ∧ c.toNat < 0x110000) := by
  have h := c.valid
  unfold UInt32.isValidChar Nat.isValidChar at h
  exact h

theorem u8Start_ascii (b : Nat) (h : b < 0x80) :
    u8Start b = Sum.inl (Sum.inl (Char.ofNat b)) := by
  unfold u8Start
  rw [if_pos h]

theorem u8Start_two (b : Nat) (h : 0xC2 ≤ b ∧ b ≤ 0xDF) :
    u8Start b = Sum.inr ⟨[b], 1, b - 0xC0, 0x80, 0xBF⟩ := by
  unfold u8Start
  rw [if_neg (by omega), if_pos h]

theorem u8Start_three (b : Nat) (h : 0xE0 ≤ b ∧ b ≤ 0xEF) :
    u8Start b = Sum.inr ⟨[b], 2, b - 0xE0,
      if b = 0xE0 then 0xA0 else 0x80, if b = 0xED then 0x9F else 0xBF⟩ := by
  unfold u8Start
  by_cases he : b = 0xE0
  · subst he
    decide
  · by_cases hd : b = 0xED
    · subst hd
      decide
    · rw [if_neg (by omega), if_neg (by omega), if_neg he]
      rw [if_neg hd, if_neg hd]
      by_cases h1 : 0xE1 ≤ b ∧ b ≤ 0xEC
      · rw [if_pos h1, if_neg he]
      · rw [if_neg h1, if_pos (by omega), if_neg he]

theorem u8Start_four (b : Nat) (h : 0xF0 ≤ b ∧ b ≤ 0xF4) :
    u8Start b = Sum.inr ⟨[b], 3, b - 0xF0,
      if b = 0xF0 then 0x90 else 0x80, if b = 0xF4 then 0x8F else 0xBF⟩ := by
  unfold u8Start
  by_cases hf : b = 0xF0
  · subst hf
    decide
  · by_cases h4 : b = 0xF4
    · subst h4
      decide
    · rw [if_neg (by omega), if_neg (by omega), if_neg (by omega), if_neg (by omega),
        if_neg (by omega), if_neg (by omega), if_neg hf]
      rw [if_neg h4, if_neg h4]
      rw [if_pos (by omega), if_neg hf]

theorem encodeChar_utf8DC (c : Char) (rest : List Nat) :
    utf8DC (encodeChar c ++ rest) = Sum.inl c :: utf8DC rest := by
  have hv := char_toNat_valid c
  have hofNat : Char.ofNat c.toNat = c := Char.ofNat_toNat c
  unfold encodeChar utf8DC
  by_cases h1 : c.toNat < 0x80
  · simp only [if_pos h1, List.cons_append, List.nil_append]
    rw [utf8Go, u8Start_ascii _ h1, hofNat]
  · by_cases h2 : c.toNat < 0x800
    · simp only [if_neg h1, if_pos h2, List.cons_append, List.nil_append]
      rw [utf8Go, u8Start_two _ (by omega)]
      dsimp only
      rw [utf8Go]
      dsimp only
      rw [if_pos (by omega), if_pos rfl]
      have he : (0xC0 + c.toNat / 64 - 0xC0) * 64 + (0x80 + c.toNat % 64 - 0x80) = c.toNat := by
        omega
      rw [he, hofNat]
    · by_cases h3 : c.toNat < 0x10000
      · simp only [if_neg h1, if_neg h2, if_pos h3, List.cons_append, List.nil_append]
        rw [utf8Go, u8Start_three _ (by omega)]
        dsimp only
        rw [utf8Go]
        dsimp only
        rw [if_pos (by constructor <;> split <;> omega), if_neg (by omega)]
        rw [utf8Go]
        dsimp only
        rw [if_pos (by omega), if_pos rfl]
        have he : ((0xE0 + c.toNat / 4096 - 0xE0) * 64 + (0x80 + c.toNat / 64 % 64 - 0x80)) * 64 +
            (0x80 + c.toNat % 64 - 0x80) = c.toNat := by
          omega
        rw [he, hofNat]
      · simp only [if_neg h1, if_neg h2, if_neg h3, List.cons_append, List.nil_append]
        rw [utf8Go, u8Start_four _ (by omega)]
        dsimp only
        rw [utf8Go]
        dsimp only
        rw [if_pos (by constructor <;> split <;> omega), if_neg (by omega)]
        rw [utf8Go]
        dsimp only
        rw [if_pos (by omega), if_neg (by omega)]
        rw [utf8Go]
        dsimp only
        rw [if_pos (by omega), if_pos rfl]
        have he : (((0xF0 + c.toNat / 262144 - 0xF0) * 64 +
            (0x80 + c.toNat / 4096 % 64 - 0x80)) * 64 +
            (0x80 + c.toNat / 64 % 64 - 0x80)) * 64 + (0x80 + c.toNat % 64 - 0x80) = c.toNat := by
          omega
        rw [he, hofNat]

theorem encodeStr_utf8DC (s : List Char) (rest : List Nat) :
    utf8DC (encodeStr s ++ rest) = s.map Sum.inl ++ utf8DC rest := by
  induction s with
  | nil => simp [encodeStr]
  | cons c cs ih =>
    simp only [encodeStr, List.flatMap_cons, List.append_assoc, List.map_cons, List.cons_append]
    rw [encodeChar_utf8DC]
    simpa [encodeStr] using ih

theorem utf8DC_nil : utf8DC [] = [] := rfl

theorem utf8DC_encodeStr (s : List Char) : utf8DC (encodeStr s) = s.map Sum.inl := by
  have h := encodeStr_utf8DC s []
  simpa [utf8DC_nil] using h

theorem validChars_encodeStr (s : List Char) : validChars (encodeStr s) = s := by
  rw [validChars, utf8DC_encodeStr]
  induction s with
  | nil => rfl
  | cons c cs ih => simpa [List.filterMap_cons] using ih

theorem decodeChars_encodeStr (s : List Char) : decodeChars (encodeStr s) = some s := by
  rw [decodeChars, utf8DC_encodeStr]
  have hall : (s.map Sum.inl).all
      (fun i : Utf8Item => match i with | Sum.inl _ => true | Sum.inr _ => false) = true := by
    induction s with
    | nil => rfl
    | cons c cs ih => simp [ih]
  rw [if_pos hall, validChars_encodeStr]

theorem utf8Lossy_encodeStr (s : List Char) : utf8Lossy (encodeStr s) = s := by
  rw [utf8Lossy, utf8DC_encodeStr]
  induction s with
  | nil => rfl
  | cons c cs ih => simpa using ih

/-- Errors of the library (types.rs CsvError), restricted to the
constructors the embedded code paths produce.  reader.rs returns
RecordError on a zero-byte read and ReadError on an io failure;
NotAField and ConversionError come from Row::get.  ConversionError
carries the field index, the lossily decoded field text and the target
type name, as in types.rs; the string payloads of the read-side errors
are irrelevant to the claims and omitted. -/
inductive CsvError where
  | RecordError
  | ReadError
  | ConversionError (index : Nat) (text : List Char) (typeName : String)
  | NotAField (index : Nat)
deriving DecidableEq

/-- types.rs struct Row: one byte buffer, a parallel list of half-open
byte ranges into it, and a per-row delimiter (default comma). -/
structure Row where
  inner : List Nat
  ranges : List (Nat × Nat)
  delim : Char
deriving DecidableEq

/-- types.rs Row::new and Default for Row; Row::with_capacity only
preallocates, its logical value is the same. -/
def Row.new : Row := ⟨[], [], ','⟩

/-- types.rs Row::count. -/
def Row.count (r : Row) : Nat := r.ranges.length

/-- types.rs Row::delimiter. -/
def Row.delimiter (r : Row) (delim : Char) : Row := ⟨r.inner, r.ranges, delim⟩

/-- types.rs Row::add_bytes: push the range, extend the buffer. -/
def Row.add_bytes (r : Row) (field : List Nat) : Row :=
  ⟨r.inner ++ field, r.ranges ++ [(r.inner.length, r.inner.length + field.length)], r.delim⟩

/-- types.rs Row::add: formats the value through Display and appends the
UTF-8 bytes of that text; the value is taken here as its display text. -/
def Row.add (r : Row) (field : List Char) : Row := r.add_bytes (encodeStr field)

/-- The byte slice inner[start..end] of the field at the given index. -/
def Row.sliceAt (r : Row) (index : Nat) : List Nat :=
  match r.ranges[index]? with
  | some (s, e) => (r.inner.take e).drop s
  | none => []

/-- types.rs Row::get: fetch the range, decode lossily, parse.  The
FromStr instance of the target type is abstracted as parse; tyName
models the type name recorded in the error. -/
def Row.get (r : Row) (parse : List Char → Option α) (tyName : String) (index : Nat) :
    Except CsvError α :=
  match r.ranges[index]? with
  | some (s, e) =>
    match parse (utf8Lossy ((r.inner.take e).drop s)) with
    | some v => Except.ok v
    | none =>
      Except.error (CsvError.ConversionError index (utf8Lossy ((r.inner.take e).drop s)) tyName)
  | none => Except.error (CsvError.NotAField index)

/-- types.rs Row::get_value: the lossily decoded text of a field. -/
def Row.get_value (r : Row) (index : Nat) : Option (List Char) :=
  match r.ranges[index]? with
  | some (s, e) => some (utf8Lossy ((r.inner.take e).drop s))
  | none => none

/-- The bytes of the Field yielded at a given index by Row::iter:
FieldsIter::next goes through get with target type Field, whose FromStr
re-encodes the lossily decoded slice text. -/
def Row.iterFieldBytes (r : Row) (index : Nat) : List Nat :=
  encodeStr (utf8Lossy (r.sliceAt index))

/-- Range shifting inside types.rs Row::remove: every range strictly
after the removed index moves back by the removed width; j is the
position of the list head in the original table. -/
def adjustFrom (j index d : Nat) : List (Nat × Nat) → List (Nat × Nat)
  | [] => []
  | p :: rest => (if index < j then (p.1 - d, p.2 - d) else p) :: adjustFrom (j + 1) index d rest

/-- types.rs Row::remove: drains the byte span, shifts later ranges back
and drops the range; no-op when the index is out of range. -/
def Row.remove (r : Row) (index : Nat) : Row :=
  match r.ranges[index]? with
  | none => r
  | some (s, e) =>
    ⟨r.inner.take s ++ r.inner.drop e,
     (adjustFrom 0 index (e - s) r.ranges).eraseIdx index,
     r.delim⟩

/-- types.rs Row::replace: when the index is in range, rebuilds the row
from Row::new by re-adding every field from the iterator (so through the
lossy re-encoding of iterFieldBytes), substituting the display text of
the new value at the index, and swaps the result in. -/
def Row.replace (r : Row) (index : Nat) (v : List Char) : Row :=
  match r.ranges[index]? with
  | none => r
  | some _ =>
    (List.range r.ranges.length).foldl
      (fun acc i => if i = index then acc.add v else acc.add_bytes (r.iterFieldBytes i))
      Row.new

/-- Quote doubling used by Display for Row. -/
def doubleQ (s : List Char) : List Char :=
  s.flatMap fun c => if c = '"' then ['"', '"'] else [c]

/-- The display text of one field inside Display for Row: Field values
from iter are decoded lossily again for printing. -/
def Row.displayFieldText (r : Row) (i : Nat) : List Char :=
  utf8Lossy (r.iterFieldBytes i)

/-- impl Display for Row (types.rs), reproduced faithfully, including
the unconditional second write of the field after the quoted form. -/
def Row.display (r : Row) : List Char :=
  ((List.range r.ranges.length).map fun i =>
    let fv := doubleQ (r.displayFieldText i)
    (if fv.contains r.delim ∨ fv.contains '"' then '"' :: (fv ++ ['"']) else []) ++
    (if i ≠ r.ranges.length - 1 then fv ++ [r.delim] else fv)).flatten

/-- writer.rs field emission inside Writer::write: a field whose valid
UTF-8 chars contain a double quote is rewritten char by char between
quotes with internal quotes doubled (bytes of invalid sequences are
skipped by the utf8_chunks loop); otherwise a field containing the
delimiter is wrapped in quotes verbatim; otherwise the raw bytes are
written unmodified. -/
def Writer.writeField (delimiter : Char) (field : List Nat) : List Nat :=
  if (validChars field).contains '"' then
    34 :: (validChars field).flatMap (fun c => if c = '"' then [34, 34] else encodeChar c) ++ [34]
  else if (validChars field).contains delimiter then
    34 :: (field ++ [34])
  else field

/-- writer.rs Writer::write loop over the range table: fields joined by
the truncated delimiter byte, none after the last field. -/
def Writer.writeBody (d : Char) (inner : List Nat) : List (Nat × Nat) → List Nat
  | [] => []
  | [(s, e)] => Writer.writeField d ((inner.take e).drop s)
  | (s, e) :: rest =>
    Writer.writeField d ((inner.take e).drop s) ++ d.toNat % 256 :: Writer.writeBody d inner rest

/-- writer.rs Writer::write: the emitted bytes of one row followed by
CRLF.  The Option argument models the writer-level delimiter override;
none means the row delimiter is used. -/
def Writer.write (delimiter : Option Char) (row : Row) : List Nat :=
  Writer.writeBody (delimiter.getD row.delim) row.inner row.ranges ++ [13, 10]

/-- One mutating operation of the Row editing API. -/
inductive RowOp where
  | add (s : List Char)
  | add_bytes (bs : List Nat)
  | remove (i : Nat)
  | replace (i : Nat) (s : List Char)

/-- Apply one editing operation. -/
def applyOp (r : Row) : RowOp → Row
  | RowOp.add s => r.add s
  | RowOp.add_bytes bs => r.add_bytes bs
  | RowOp.remove i => r.remove i
  | RowOp.replace i s => r.replace i s

/-- A row reachable from the empty row by a sequence of operations. -/
def applyOps (ops : List RowOp) : Row := ops.foldl applyOp Row.new

/-- Canonical contiguous range table starting at p for fields of the
given lengths. -/
def mkRanges (p : Nat) : List Nat → List (Nat × Nat)
  | [] => []
  | n :: ns => (p, p + n) :: mkRanges (p + n) ns

/-- Internal invariant of reachable rows: the range table is the
canonical contiguous table of some field lengths whose total is the
buffer length. -/
def RowInv (r : Row) : Prop :=
  ∃ lens : List Nat, r.ranges = mkRanges 0 lens ∧ r.inner.length = lens.sum

/-- Outcome of scanning the chars of one physical line in read_fields:
either the early return at an unescaped line feed, or the end of the
char loop with the surviving state (row, field buffer, the
quote-first-char flag and the multi-line flag). -/
inductive ScanOut where
  | done (row : Row)
  | cont (row : Row) (fb : List Nat) (qfc : Bool) (ml : Bool)
deriving DecidableEq

/-- The per-row scanning state of the read_fields char loop: the row
built so far, the field byte buffer, the quote-first-char flag, the
per-line quote count, the escaping flag and the multi_line flag. -/
structure ScanSt where
  row : Row
  fb : List Nat
  qfc : Bool
  qc : Nat
  esc : Bool
  ml : Bool
deriving DecidableEq

/-- The updated quote count for one char of the read_fields loop. -/
def qcNext (c : Char) (st : ScanSt) : Nat := if c = '"' then st.qc + 1 else st.qc

/-- The updated quote-first-char flag for one char of the read_fields
loop: set when a quote arrives while the field buffer is empty. -/
def qfcNext (c : Char) (st : ScanSt) : Bool :=
  if c = '"' ∧ st.fb = [] then true else st.qfc

/-- One iteration of the char loop of reader.rs read_fields, transcribed
branch for branch: quote counting with the quote-first-char gate,
separator handling outside escaping, unconditional carriage-return
skipping, line feed returning the finished row when not escaping and
setting multi_line when escaping, and every non-skipped char pushed
into the field buffer as its UTF-8 bytes. -/
def scanStep (sep c : Char) (st : ScanSt) : Sum Row ScanSt :=
  if c = '"' ∧ qfcNext c st then
    if qcNext c st = 1 then Sum.inr ⟨st.row, st.fb, qfcNext c st, qcNext c st, true, st.ml⟩
    else if 1 < qcNext c st ∧ qcNext c st % 2 = 0 then
      Sum.inr ⟨st.row, st.fb, qfcNext c st, qcNext c st, false, st.ml⟩
    else Sum.inr ⟨st.row, st.fb ++ encodeChar c, qfcNext c st, qcNext c st, st.esc, st.ml⟩
  else if c = sep then
    if st.esc then Sum.inr ⟨st.row, st.fb ++ encodeChar c, qfcNext c st, qcNext c st, st.esc, st.ml⟩
    else Sum.inr ⟨st.row.add_bytes st.fb, [], false, 0, st.esc, st.ml⟩
  else if c = '\r' then Sum.inr ⟨st.row, st.fb, qfcNext c st, qcNext c st, st.esc, st.ml⟩
  else if c = '\n' then
    if st.esc then Sum.inr ⟨st.row, st.fb ++ encodeChar c, qfcNext c st, qcNext c st, st.esc, true⟩
    else Sum.inl (st.row.add_bytes st.fb)
  else Sum.inr ⟨st.row, st.fb ++ encodeChar c, qfcNext c st, qcNext c st, st.esc, st.ml⟩

/-- The char loop of reader.rs read_fields over one physical line:
iterate scanStep, stopping early at the return inside the line feed
branch. -/
def scanLine (sep : Char) : List Char → ScanSt → ScanOut
  | [], st => ScanOut.cont st.row st.fb st.qfc st.ml
  | c :: cs, st =>
    match scanStep sep c st with
    | Sum.inl row2 => ScanOut.done row2
    | Sum.inr st2 => scanLine sep cs st2

/-- The outcome of one read_line call on the underlying buffered source:
an io error, or the bytes of one physical line (everything up to and
including the next 0x0A byte, or the remaining bytes at end of input).
End of input itself is the exhaustion of the list. -/
inductive LineRead where
  | ioErr
  | bytes (bs : List Nat)
deriving DecidableEq

/-- The while multi_line loop of reader.rs read_fields: a zero-byte read
is RecordError, an io failure (including invalid UTF-8 rejected by
read_line) is ReadError; otherwise the line chars are scanned, the
field buffer is flushed when non-empty or when the last assigned char
equals the separator, and the loop continues while multi_line is set.
The char lc threads the Rust current_char variable across lines. -/
def rfLoop (sep : Char) : List LineRead → Row → Bool → Char →
    Except CsvError (Row × List LineRead)
  | [], _, _, _ => Except.error CsvError.RecordError
  | LineRead.ioErr :: _, _, _, _ => Except.error CsvError.ReadError
  | LineRead.bytes bs :: rest, row, qfc, lc =>
    match decodeChars bs with
    | none => Except.error CsvError.ReadError
    | some line =>
      match scanLine sep line ⟨row, [], qfc, 0, false, false⟩ with
      | ScanOut.done row2 => Except.ok (row2, rest)
      | ScanOut.cont row2 fb qfc2 ml =>
        let lc2 := line.getLastD lc
        let row3 := if fb ≠ [] ∨ lc2 = sep then row2.add_bytes fb else row2
        if ml then rfLoop sep rest row3 qfc2 lc2 else Except.ok (row3, rest)

/-- reader.rs read_fields: parse one logical record from the line
source, returning the row and the unconsumed part of the source. -/
def read_fields (sep : Char) (src : List LineRead) : Except CsvError (Row × List LineRead) :=
  rfLoop sep src Row.new false ' '

/-- Split a byte stream into the successive results of read_line:
chunks ending at each 0x0A inclusive, with a final unterminated chunk
when the stream does not end in 0x0A. -/
def splitLines : List Nat → List (List Nat)
  | [] => []
  | b :: rest =>
    if b = 10 then [10] :: splitLines rest
    else
      match splitLines rest with
      | [] => [[b]]
      | l :: ls => (b :: l) :: ls

/-- A byte stream seen as a line source without io errors. -/
def linesOf (bs : List Nat) : List LineRead := (splitLines bs).map LineRead.bytes

/-- read_fields applied to a plain byte stream. -/
def read_fieldsBytes (sep : Char) (bs : List Nat) : Except CsvError (Row × List LineRead) :=
  read_fields sep (linesOf bs)

/-- reader.rs Entries::next: read one record with the reader delimiter
or the default comma, converting every error into end of iteration
through Result::ok. -/
def entriesNext (delimiter : Option Char) (src : List LineRead) : Option (Row × List LineRead) :=
  (read_fields (delimiter.getD ',') src).toOption

theorem mkRanges_length (lens : List Nat) (p : Nat) :
    (mkRanges p lens).length = lens.length := by
  induction lens generalizing p with
  | nil => rfl
  | cons n ns ih =>
    rw [mkRanges]
    simp [ih]

theorem mkRanges_snoc (lens : List Nat) (p n : Nat) :
    mkRanges p (lens ++ [n]) = mkRanges p lens ++ [(p + lens.sum, p + lens.sum + n)] := by
  induction lens generalizing p with
  | nil => simp [mkRanges]
  | cons m ms ih =>
    have h1 : p + m + ms.sum = p + (m :: ms).sum := by
      simp only [List.sum_cons]
      omega
    rw [List.cons_append, mkRanges, mkRanges, ih, h1, List.cons_append]

theorem adjustFrom_length (l : List (Nat × Nat)) (j index d : Nat) :
    (adjustFrom j index d l).length = l.length := by
  induction l generalizing j with
  | nil => rfl
  | cons p rest ih =>
    rw [adjustFrom]
    simp [ih]

theorem adjustFrom_succ (l : List (Nat × Nat)) (j index d : Nat) :
    adjustFrom (j + 1) (index + 1) d l = adjustFrom j index d l := by
  induction l generalizing j with
  | nil => rfl
  | cons p rest ih =>
    rw [adjustFrom, adjustFrom, ih]
    congr 1
    by_cases h : index < j
    · rw [if_pos (by omega), if_pos h]
    · rw [if_neg (by omega), if_neg h]

theorem adjustFrom_all (l : List (Nat × Nat)) (j index d : Nat) (h : index < j) :
    adjustFrom j index d l = l.map fun q => (q.1 - d, q.2 - d) := by
  induction l generalizing j with
  | nil => rfl
  | cons p rest ih =>
    rw [adjustFrom, if_pos h, List.map_cons, ih (j + 1) (by omega)]

theorem mkRanges_shift (lens : List Nat) (p d : Nat) :
    (mkRanges (p + d) lens).map (fun q => (q.1 - d, q.2 - d)) = mkRanges p lens := by
  induction lens generalizing p with
  | nil => rfl
  | cons n ns ih =>
    rw [mkRanges, mkRanges, List.map_cons]
    have h1 : p + d + n = p + n + d := by omega
    rw [h1, ih (p + n)]
    congr 1
    simp only [Prod.mk.injEq]
    omega

theorem mkRanges_getElem (lens : List Nat) (p i s e : Nat)
    (h : (mkRanges p lens)[i]? = some (s, e)) :
    p ≤ s ∧ s ≤ e ∧ e ≤ p + lens.sum ∧ (lens.eraseIdx i).sum + (e - s) = lens.sum := by
  induction lens generalizing p i with
  | nil => simp [mkRanges] at h
  | cons n ns ih =>
    rw [mkRanges] at h
    cases i with
    | zero =>
      simp only [List.getElem?_cons_zero, Option.some.injEq, Prod.mk.injEq] at h
      obtain ⟨hs, he⟩ := h
      have hsum : 0 ≤ ns.sum := Nat.zero_le _
      subst hs he
      simp only [List.eraseIdx_cons_zero, List.sum_cons]
      omega
    | succ k =>
      simp only [List.getElem?_cons_succ] at h
      have hfacts := ih (p + n) k h
      simp only [List.eraseIdx_cons_succ, List.sum_cons]
      omega

theorem remove_ranges_eq (lens : List Nat) (p i s e : Nat)
    (h : (mkRanges p lens)[i]? = some (s, e)) :
    (adjustFrom 0 i (e - s) (mkRanges p lens)).eraseIdx i = mkRanges p (lens.eraseIdx i) := by
  induction lens generalizing p i with
  | nil => simp [mkRanges] at h
  | cons n ns ih =>
    rw [mkRanges] at h
    cases i with
    | zero =>
      simp only [List.getElem?_cons_zero, Option.some.injEq, Prod.mk.injEq] at h
      obtain ⟨hs, he⟩ := h
      rw [mkRanges, adjustFrom, List.eraseIdx_cons_zero, List.eraseIdx_cons_zero]
      rw [adjustFrom_all _ _ _ _ (by omega)]
      have hd : e - s = n := by omega
      rw [hd]
      exact mkRanges_shift ns p n
    | succ k =>
      simp only [List.getElem?_cons_succ] at h
      rw [mkRanges, adjustFrom, if_neg (by omega), adjustFrom_succ,
        List.eraseIdx_cons_succ, List.eraseIdx_cons_succ, mkRanges]
      rw [ih (p + n) k h]

theorem RowInv_new : RowInv Row.new := ⟨[], rfl, rfl⟩

theorem RowInv_add_bytes (r : Row) (bs : List Nat) (h : RowInv r) :
    RowInv (r.add_bytes bs) := by
  obtain ⟨lens, hr, hl⟩ := h
  refine ⟨lens ++ [bs.length], ?_, ?_⟩
  · show r.ranges ++ [(r.inner.length, r.inner.length + bs.length)] = _
    rw [hr, hl, mkRanges_snoc]
    simp
  · show (r.inner ++ bs).length = (lens ++ [bs.length]).sum
    simp [hl]

theorem RowInv_add (r : Row) (s : List Char) (h : RowInv r) : RowInv (r.add s) :=
  RowInv_add_bytes r (encodeStr s) h

theorem foldl_pres {α : Type} (P : Row → Prop) (f : Row → α → Row)
    (hf : ∀ r x, P r → P (f r x)) : ∀ (l : List α) (r : Row), P r → P (l.foldl f r)
  | [], _, h => h
  | x :: xs, r, h => foldl_pres P f hf xs (f r x) (hf r x h)

theorem getElem_some_lt {α : Type} (l : List α) (i : Nat) (a : α) (h : l[i]? = some a) :
    i < l.length := by
  by_contra hc
  rw [List.getElem?_eq_none (by omega)] at h
  cases h

theorem RowInv_remove (r : Row) (i : Nat) (h : RowInv r) : RowInv (r.remove i) := by
  obtain ⟨lens, hr, hl⟩ := h
  cases hx : r.ranges[i]? with
  | none =>
    unfold Row.remove
    rw [hx]
    exact ⟨lens, hr, hl⟩
  | some se =>
    obtain ⟨s, e⟩ := se
    unfold Row.remove
    rw [hx]
    have hx2 : (mkRanges 0 lens)[i]? = some (s, e) := by rw [← hr]; exact hx
    have hf := mkRanges_getElem lens 0 i s e hx2
    refine ⟨lens.eraseIdx i, ?_, ?_⟩
    · show (adjustFrom 0 i (e - s) r.ranges).eraseIdx i = _
      rw [hr]
      exact remove_ranges_eq lens 0 i s e hx2
    · show (r.inner.take s ++ r.inner.drop e).length = (lens.eraseIdx i).sum
      rw [List.length_append, List.length_take, List.length_drop]
      omega

/-- The body of Row.replace written as a uniform add_bytes fold. -/
theorem replace_fun_eq (r : Row) (index : Nat) (v : List Char) :
    (fun (acc : Row) i => if i = index then acc.add v else acc.add_bytes (r.iterFieldBytes i))
      = fun (acc : Row) i =>
        acc.add_bytes (if i = index then encodeStr v else r.iterFieldBytes i) := by
  funext acc i
  by_cases hi : i = index
  · rw [if_pos hi, if_pos hi]
    rfl
  · rw [if_neg hi, if_neg hi]

theorem RowInv_replace (r : Row) (i : Nat) (v : List Char) (h : RowInv r) :
    RowInv (r.replace i v) := by
  cases hx : r.ranges[i]? with
  | none =>
    unfold Row.replace
    rw [hx]
    exact h
  | some se =>
    unfold Row.replace
    rw [hx, replace_fun_eq]
    exact foldl_pres RowInv _ (fun r2 x h2 => RowInv_add_bytes r2 _ h2) _ Row.new RowInv_new

theorem RowInv_applyOp (r : Row) (op : RowOp) (h : RowInv r) : RowInv (applyOp r op) := by
  cases op with
  | add s => exact RowInv_add r s h
  | add_bytes bs => exact RowInv_add_bytes r bs h
  | remove i => exact RowInv_remove r i h
  | replace i s => exact RowInv_replace r i s h

theorem RowInv_applyOps (ops : List RowOp) : RowInv (applyOps ops) :=
  foldl_pres RowInv applyOp RowInv_applyOp ops Row.new RowInv_new

theorem count_add_bytes (r : Row) (bs : List Nat) : (r.add_bytes bs).count = r.count + 1 := by
  simp [Row.add_bytes, Row.count]

theorem count_foldl_add_bytes {α : Type} (l : List α) (g : α → List Nat) :
    ∀ r : Row, (l.foldl (fun acc x => acc.add_bytes (g x)) r).count = r.count + l.length := by
  induction l with
  | nil => intro r; simp
  | cons x xs ih =>
    intro r
    rw [List.foldl_cons, ih]
    rw [count_add_bytes]
    simp only [List.length_cons]
    omega

theorem delim_add_bytes (r : Row) (bs : List Nat) : (r.add_bytes bs).delim = r.delim := rfl

theorem delim_foldl_add_bytes {α : Type} (l : List α) (g : α → List Nat) :
    ∀ r : Row, (l.foldl (fun acc x => acc.add_bytes (g x)) r).delim = r.delim := by
  induction l with
  | nil => intro r; rfl
  | cons x xs ih =>
    intro r
    rw [List.foldl_cons, ih]
    rfl

theorem mkRanges_first (lens : List Nat) (p s e : Nat)
    (h : (mkRanges p lens)[0]? = some (s, e)) : s = p := by
  cases lens with
  | nil => simp [mkRanges] at h
  | cons n ns =>
    rw [mkRanges] at h
    simp only [List.getElem?_cons_zero, Option.some.injEq, Prod.mk.injEq] at h
    omega

theorem mkRanges_adjacent (lens : List Nat) (p i s e s2 e2 : Nat)
    (h1 : (mkRanges p lens)[i]? = some (s, e))
    (h2 : (mkRanges p lens)[i + 1]? = some (s2, e2)) : e = s2 := by
  induction lens generalizing p i with
  | nil => simp [mkRanges] at h1
  | cons n ns ih =>
    rw [mkRanges] at h1 h2
    cases i with
    | zero =>
      simp only [List.getElem?_cons_zero, Option.some.injEq, Prod.mk.injEq] at h1
      simp only [List.getElem?_cons_succ] at h2
      have hs2 := mkRanges_first ns (p + n) s2 e2 h2
      omega
    | succ k =>
      simp only [List.getElem?_cons_succ] at h1 h2
      exact ih (p + n) k h1 h2

/-- Claim C5: for every Row, add and add_bytes increase count() by
exactly one; remove(i) with i < count() decreases count() by exactly
one; replace(i, v) with i < count() leaves count() unchanged; and
ranges.len() always equals count(). -/
theorem claim_C5 (r : Row) (bs : List Nat) (s v : List Char) (i : Nat) (h : i < r.count) :
    (r.add_bytes bs).count = r.count + 1 ∧
    (r.add s).count = r.count + 1 ∧
    (r.remove i).count = r.count - 1 ∧
    (r.replace i v).count = r.count ∧
    r.ranges.length = r.count := by
  have hlt : i < r.ranges.length := h
  have hx := List.getElem?_eq_getElem hlt
  refine ⟨count_add_bytes r bs, count_add_bytes r (encodeStr s), ?_, ?_, rfl⟩
  · rcases hse : r.ranges[i] with ⟨s2, e2⟩
    rw [hse] at hx
    unfold Row.remove
    rw [hx]
    show ((adjustFrom 0 i (e2 - s2) r.ranges).eraseIdx i).length = r.ranges.length - 1
    rw [List.length_eraseIdx, adjustFrom_length, if_pos hlt]
  · unfold Row.replace
    rw [hx]
    show ((List.range r.ranges.length).foldl _ Row.new).count = r.count
    rw [replace_fun_eq, count_foldl_add_bytes]
    simp [Row.count, Row.new]

/-- Witness for C5 at a concrete one-field row. -/
theorem claim_C5_witness :
    ((Row.new.add_bytes [97]).remove 0).count = (Row.new.add_bytes [97]).count - 1 :=
  (claim_C5 (Row.new.add_bytes [97]) [98] ['x'] ['y'] 0 (by decide)).2.2.1

/-- Claim C6: every Row reachable from the empty row by add, add_bytes,
remove and replace operations has a range table whose entries satisfy
start <= end and end <= buffer length, whose first entry (when present)
starts at 0, and in which the end of each entry equals the start of the
next. -/
theorem claim_C6 (ops : List RowOp) :
    (∀ (i s e : Nat), (applyOps ops).ranges[i]? = some (s, e) →
      s ≤ e ∧ e ≤ (applyOps ops).inner.length) ∧
    (∀ (s e : Nat), (applyOps ops).ranges[0]? = some (s, e) → s = 0) ∧
    (∀ (i s e s2 e2 : Nat), (applyOps ops).ranges[i]? = some (s, e) →
      (applyOps ops).ranges[i + 1]? = some (s2, e2) → e = s2) := by
  obtain ⟨lens, hr, hl⟩ := RowInv_applyOps ops
  refine ⟨?_, ?_, ?_⟩
  · intro i s e hx
    rw [hr] at hx
    have hf := mkRanges_getElem lens 0 i s e hx
    rw [hl]
    omega
  · intro s e hx
    rw [hr] at hx
    exact mkRanges_first lens 0 s e hx
  · intro i s e s2 e2 h1 h2
    rw [hr] at h1 h2
    exact mkRanges_adjacent lens 0 i s e s2 e2 h1 h2

/-- Witness for C6 at a concrete operation sequence. -/
theorem claim_C6_witness :
    (0 : Nat) ≤ 1 ∧ 1 ≤ (applyOps [RowOp.add_bytes [97]]).inner.length :=
  (claim_C6 [RowOp.add_bytes [97]]).1 0 0 1 (by rfl)

/-- Claim C7: Row::get returns the NotAField error exactly when the
index is at least count(); otherwise it lossily decodes the field bytes
(a total operation, never a panic) and parses them, a parse failure
producing a ConversionError that carries the index, the decoded text
and the target type name.  The invariant hypothesis restricts the
statement to rows reachable through the API, on which the Rust slicing
is defined. -/
theorem claim_C7 {α : Type} (r : Row) (_hinv : RowInv r) (parse : List Char → Option α)
    (tyName : String) (i : Nat) :
    (i ≥ r.count → r.get parse tyName i = Except.error (CsvError.NotAField i)) ∧
    (i < r.count →
      r.get parse tyName i =
        match parse (utf8Lossy (r.sliceAt i)) with
        | some v => Except.ok v
        | none => Except.error (CsvError.ConversionError i (utf8Lossy (r.sliceAt i)) tyName)) := by
  constructor
  · intro hge
    have hx : r.ranges[i]? = none := List.getElem?_eq_none hge
    unfold Row.get
    rw [hx]
  · intro hlt
    have hx := List.getElem?_eq_getElem (show i < r.ranges.length from hlt)
    rcases hse : r.ranges[i] with ⟨s2, e2⟩
    rw [hse] at hx
    unfold Row.get Row.sliceAt
    rw [hx]
    rfl

/-- Witness for C7 at a concrete row, index and parser. -/
theorem claim_C7_witness :
    (Row.new.add_bytes [97]).get (fun s => some s) "text" 0 = Except.ok ['a'] := by
  have h := (claim_C7 (Row.new.add_bytes [97]) ⟨[1], rfl, rfl⟩
    (fun s => some s) "text" 0).2 (by decide)
  rw [h]
  rfl

/-- Claim C10: replace(index, value) with index < count() rebuilds the
row through Row::new and swaps, so the delimiter of the row afterwards
is the default comma, whatever it was before. -/
theorem claim_C10 (r : Row) (i : Nat) (v : List Char) (h : i < r.count) :
    (r.replace i v).delim = ',' := by
  have hx := List.getElem?_eq_getElem (show i < r.ranges.length from h)
  rcases hse : r.ranges[i] with ⟨s2, e2⟩
  rw [hse] at hx
  unfold Row.replace
  rw [hx]
  show ((List.range r.ranges.length).foldl _ Row.new).delim = ','
  rw [replace_fun_eq, delim_foldl_add_bytes]
  rfl

/-- Witness for C10: a row whose delimiter was set to a semicolon
falls back to the comma after replace. -/
theorem claim_C10_witness :
    (((Row.new.add_bytes [97]).delimiter ';').replace 0 ['x']).delim = ',' :=
  claim_C10 ((Row.new.add_bytes [97]).delimiter ';') 0 ['x'] (by decide)

/-- Counterexample for claim C8: a genuine read failure (an io error on
the very first read) makes Entries::next return none, the very same
outcome as an exhausted source, because next discards every error with
Result::ok; no error value distinguishable from exhaustion ever reaches
the caller (the iterator item type is the row itself). -/
theorem claim_C8_cex :
    entriesNext none [LineRead.ioErr] = none ∧ entriesNext none [] = none :=
  ⟨rfl, rfl⟩

/-- Claim C8 as amended: iteration ends (yields none) both on an
exhausted source, where read_fields reports RecordError on the
zero-byte read, and on a genuine read failure, where read_fields
reports ReadError; Entries::next converts every such error into end of
iteration, so read failures are not distinguishable from exhaustion. -/
theorem claim_C8_amended (d : Option Char) (src : List LineRead) (e : CsvError)
    (h : read_fields (d.getD ',') src = Except.error e) :
    entriesNext d src = none ∧
    read_fields (d.getD ',') [] = Except.error CsvError.RecordError ∧
    read_fields (d.getD ',') (LineRead.ioErr :: src) = Except.error CsvError.ReadError := by
  refine ⟨?_, rfl, rfl⟩
  rw [entriesNext, h]
  rfl

/-- Witness for the amended C8 at the exhausted source. -/
theorem claim_C8_witness :
    entriesNext none [] = none ∧
    read_fields ',' [] = Except.error CsvError.RecordError ∧
    read_fields ',' (LineRead.ioErr :: []) = Except.error CsvError.ReadError :=
  claim_C8_amended none [] CsvError.RecordError rfl

theorem charOfNat_toNat_cases (n : Nat) : (Char.ofNat n).toNat = n ∨ (Char.ofNat n).toNat = 0 := by
  unfold Char.ofNat
  split
  · left
    rfl
  · right
    rfl

theorem eq_cr_of_toNat (c : Char) (h13 : c.toNat = 13) : c = '\r' :=
  Char.ext (UInt32.toNat.inj h13)

theorem thirteen_not_in_encodeChar (c : Char) (h : c ≠ '\r') : ¬ (13 : Nat) ∈ encodeChar c := by
  unfold encodeChar
  by_cases h1 : c.toNat < 0x80
  · simp only [if_pos h1, List.mem_singleton]
    intro h13
    exact h (eq_cr_of_toNat c h13.symm)
  · by_cases h2 : c.toNat < 0x800
    · simp only [if_neg h1, if_pos h2, List.mem_cons, List.not_mem_nil, or_false]
      intro h13
      rcases h13 with h13 | h13 <;> omega
    · by_cases h3 : c.toNat < 0x10000
      · simp only [if_neg h1, if_neg h2, if_pos h3, List.mem_cons, List.not_mem_nil, or_false]
        intro h13
        rcases h13 with h13 | h13 | h13 <;> omega
      · simp only [if_neg h1, if_neg h2, if_neg h3, List.mem_cons, List.not_mem_nil, or_false]
        intro h13
        rcases h13 with h13 | h13 | h13 | h13 <;> omega


theorem scanStep13 (sep c : Char) (hsep : sep ≠ '\r') (st : ScanSt)
    (hrow : ¬ (13 : Nat) ∈ st.row.inner) (hfb : ¬ (13 : Nat) ∈ st.fb) :
    (∀ row2, scanStep sep c st = Sum.inl row2 → ¬ (13 : Nat) ∈ row2.inner) ∧
    (∀ st2, scanStep sep c st = Sum.inr st2 →
      ¬ (13 : Nat) ∈ st2.row.inner ∧ ¬ (13 : Nat) ∈ st2.fb) := by
  have hpush : ∀ _ : c ≠ '\r', ¬ (13 : Nat) ∈ st.fb ++ encodeChar c := by
    intro hc hm
    rcases List.mem_append.mp hm with hm | hm
    · exact hfb hm
    · exact thirteen_not_in_encodeChar c hc hm
  have hflush : ¬ (13 : Nat) ∈ (st.row.add_bytes st.fb).inner := by
    intro hm
    rcases List.mem_append.mp hm with hm | hm
    · exact hrow hm
    · exact hfb hm
  unfold scanStep
  by_cases hA : c = '"' ∧ qfcNext c st = true
  · rw [if_pos hA]
    by_cases h1 : qcNext c st = 1
    · rw [if_pos h1]
      refine ⟨fun row2 hx => (nomatch hx), fun st2 hx => ?_⟩
      cases hx
      exact ⟨hrow, hfb⟩
    · rw [if_neg h1]
      by_cases h2 : 1 < qcNext c st ∧ qcNext c st % 2 = 0
      · rw [if_pos h2]
        refine ⟨fun row2 hx => (nomatch hx), fun st2 hx => ?_⟩
        cases hx
        exact ⟨hrow, hfb⟩
      · rw [if_neg h2]
        refine ⟨fun row2 hx => (nomatch hx), fun st2 hx => ?_⟩
        cases hx
        exact ⟨hrow, hpush (by rw [hA.1]; decide)⟩
  · rw [if_neg hA]
    by_cases hs : c = sep
    · rw [if_pos hs]
      by_cases he : st.esc = true
      · rw [if_pos he]
        refine ⟨fun row2 hx => (nomatch hx), fun st2 hx => ?_⟩
        cases hx
        exact ⟨hrow, hpush (by rw [hs]; exact hsep)⟩
      · rw [if_neg he]
        refine ⟨fun row2 hx => (nomatch hx), fun st2 hx => ?_⟩
        cases hx
        exact ⟨hflush, by simp⟩
    · rw [if_neg hs]
      by_cases hcr : c = '\r'
      · rw [if_pos hcr]
        refine ⟨fun row2 hx => (nomatch hx), fun st2 hx => ?_⟩
        cases hx
        exact ⟨hrow, hfb⟩
      · rw [if_neg hcr]
        by_cases hlf : c = '\n'
        · rw [if_pos hlf]
          by_cases he : st.esc = true
          · rw [if_pos he]
            refine ⟨fun row2 hx => (nomatch hx), fun st2 hx => ?_⟩
            cases hx
            exact ⟨hrow, hpush hcr⟩
          · rw [if_neg he]
            refine ⟨fun row2 hx => ?_, fun st2 hx => (nomatch hx)⟩
            cases hx
            exact hflush
        · rw [if_neg hlf]
          refine ⟨fun row2 hx => (nomatch hx), fun st2 hx => ?_⟩
          cases hx
          exact ⟨hrow, hpush hcr⟩

theorem scan13 (sep : Char) (hsep : sep ≠ '\r') :
    ∀ (line : List Char) (st : ScanSt),
      ¬ (13 : Nat) ∈ st.row.inner → ¬ (13 : Nat) ∈ st.fb →
      (∀ row2, scanLine sep line st = ScanOut.done row2 → ¬ (13 : Nat) ∈ row2.inner) ∧
      (∀ row2 fb2 qfc2 ml2, scanLine sep line st = ScanOut.cont row2 fb2 qfc2 ml2 →
        ¬ (13 : Nat) ∈ row2.inner ∧ ¬ (13 : Nat) ∈ fb2) := by
  intro line
  induction line with
  | nil =>
    intro st hrow hfb
    constructor
    · intro row2 hd
      rw [scanLine] at hd
      cases hd
    · intro row2 fb2 qfc2 ml2 hc
      rw [scanLine] at hc
      cases hc
      exact ⟨hrow, hfb⟩
  | cons c cs ih =>
    intro st hrow hfb
    have hstep := scanStep13 sep c hsep st hrow hfb
    rw [scanLine]
    cases hx : scanStep sep c st with
    | inl row2 =>
      refine ⟨fun row3 hd => ?_, fun row3 fb3 qfc3 ml3 hc => ?_⟩
      · dsimp only at hd
        cases hd
        exact hstep.1 row2 hx
      · dsimp only at hc
        cases hc
    | inr st2 =>
      have h2 := hstep.2 st2 hx
      refine ⟨fun row3 hd => ?_, fun row3 fb3 qfc3 ml3 hc => ?_⟩
      · dsimp only at hd
        exact (ih st2 h2.1 h2.2).1 row3 hd
      · dsimp only at hc
        exact (ih st2 h2.1 h2.2).2 row3 fb3 qfc3 ml3 hc

theorem rfLoop13 (sep : Char) (hsep : sep ≠ '\r') :
    ∀ (src : List LineRead) (row : Row) (qfc : Bool) (lc : Char) (r : Row)
      (rest : List LineRead),
      ¬ (13 : Nat) ∈ row.inner →
      rfLoop sep src row qfc lc = Except.ok (r, rest) → ¬ (13 : Nat) ∈ r.inner := by
  intro src
  induction src with
  | nil =>
    intro row qfc lc r rest hrow h
    rw [rfLoop] at h
    cases h
  | cons lr rest2 ih =>
    intro row qfc lc r rest hrow h
    cases lr with
    | ioErr =>
      rw [rfLoop] at h
      cases h
    | bytes bs =>
      rw [rfLoop] at h
      cases hd : decodeChars bs with
      | none =>
        rw [hd] at h
        cases h
      | some line =>
        rw [hd] at h
        dsimp only at h
        have hscan := scan13 sep hsep line ⟨row, [], qfc, 0, false, false⟩ hrow (by simp)
        cases hs : scanLine sep line ⟨row, [], qfc, 0, false, false⟩ with
        | done row2 =>
          rw [hs] at h
          dsimp only at h
          cases h
          exact hscan.1 _ hs
        | cont row2 fb qfc2 ml =>
          rw [hs] at h
          dsimp only at h
          have hpair := hscan.2 row2 fb qfc2 ml hs
          have hrow3 :
              ¬ (13 : Nat) ∈
                (if fb ≠ [] ∨ line.getLastD lc = sep then row2.add_bytes fb else row2).inner := by
            split
            · intro hm
              rcases List.mem_append.mp hm with hm | hm
              · exact hpair.1 hm
              · exact hpair.2 hm
            · exact hpair.1
          cases ml with
          | true =>
            rw [if_pos rfl] at h
            exact ih _ _ _ r rest hrow3 h
          | false =>
            rw [if_neg (by simp)] at h
            cases h
            exact hrow3

/-- Counterexample for claim C4: parsing the quoted field with an
embedded carriage return yields the field bytes with the carriage
return dropped, although it sits inside an open quote: the claim that
an escaped carriage return is kept as data is false. -/
theorem claim_C4_cex :
    read_fieldsBytes ',' [34, 97, 13, 98, 34, 10]
      = Except.ok (Row.new.add_bytes [97, 98], []) ∧
    ¬ (13 : Nat) ∈ (Row.new.add_bytes [97, 98]).sliceAt 0 :=
  ⟨rfl, by decide⟩

/-- Claim C4 as amended: whenever the separator is not the carriage
return itself, a carriage return byte never reaches any field of a row
returned by read_fields, whether it occurred inside or outside an open
quote — the CR branch of the char loop skips it unconditionally. -/
theorem claim_C4_amended (sep : Char) (hsep : sep ≠ '\r') (src : List LineRead) (r : Row)
    (rest : List LineRead) (h : read_fields sep src = Except.ok (r, rest)) (i : Nat) :
    ¬ (13 : Nat) ∈ r.inner ∧ ¬ (13 : Nat) ∈ r.sliceAt i := by
  have h13 := rfLoop13 sep hsep src Row.new false ' ' r rest (by simp [Row.new]) h
  refine ⟨h13, ?_⟩
  unfold Row.sliceAt
  cases hx : r.ranges[i]? with
  | none => simp
  | some se =>
    obtain ⟨s, e⟩ := se
    intro hm
    exact h13 (List.mem_of_mem_take (List.mem_of_mem_drop hm))

/-- Witness for the amended C4 at a concrete parse. -/
theorem claim_C4_witness :
    ¬ (13 : Nat) ∈ (Row.new.add_bytes [97]).inner ∧
    ¬ (13 : Nat) ∈ (Row.new.add_bytes [97]).sliceAt 0 :=
  claim_C4_amended ',' (by decide) (linesOf [97, 10]) (Row.new.add_bytes [97]) [] rfl 0

/-- Claim C3 is a code bug: the spec input, a quoted field containing a
literal line feed then a comma then c, makes read_fields fail with
RecordError instead of producing the two fields.  The end-of-line flush
runs even while multi_line is set, so the open field is flushed at each
physical line and the loop finally hits end of input. -/
theorem claim_C3_bug :
    read_fieldsBytes ',' [34, 97, 10, 98, 34, 44, 99, 10] = Except.error CsvError.RecordError :=
  rfl

/-- Claim C2 is a code bug: for the one-field row containing text a,b
the writer emits the quoted field once, while Display writes the quoted
form and then the unquoted text again (the join write is not guarded by
an else), so display plus CRLF differs from the writer bytes. -/
theorem claim_C2_bug :
    Writer.write none (Row.new.add ['a', ',', 'b'])
      = encodeStr ['"', 'a', ',', 'b', '"'] ++ [13, 10] ∧
    (Row.new.add ['a', ',', 'b']).display = ['"', 'a', ',', 'b', '"', 'a', ',', 'b'] ∧
    encodeStr ((Row.new.add ['a', ',', 'b']).display) ++ [13, 10] ≠
      Writer.write none (Row.new.add ['a', ',', 'b']) :=
  ⟨rfl, rfl, by decide⟩

/-- Counterexample for claim C9: a line whose bytes are not valid UTF-8
makes read_fields fail with ReadError — read_line rejects the bytes —
so reading does not succeed and no row is produced. -/
theorem claim_C9_cex :
    read_fieldsBytes ',' [255, 10] = Except.error CsvError.ReadError :=
  rfl

/-- Invariant of reachable intermediate decoder states: when one
continuation byte remains the partial value is already positive, and
in general either the partial value is positive or the next allowed
range forces a positive contribution.  It guarantees multi-byte
sequences never decode below 0x80. -/
def StOk (st : U8St) : Prop := (st.exp = 1 → 1 ≤ st.cp) ∧ (1 ≤ st.cp ∨ 0x81 ≤ st.lo)

theorem u8Start_StOk (b : Nat) (st : U8St) (h : u8Start b = Sum.inr st) : StOk st := by
  unfold u8Start at h
  split_ifs at h <;> cases h <;> refine ⟨fun h1 => ?_, ?_⟩ <;> dsimp only at * <;> omega

theorem u8Start_quote (b : Nat) (h : u8Start b = Sum.inl (Sum.inl '"')) : b = 34 := by
  unfold u8Start at h
  split_ifs at h with h1 h2 h3 h4 h5 h6 h7 h8 h9
  · have hq : Char.ofNat b = '"' := by
      injection h with h
      injection h
    have h34 : (Char.ofNat b).toNat = 34 := by
      rw [hq]
      rfl
    rcases charOfNat_toNat_cases b with hc | hc <;> omega
  all_goals cases h

theorem ofNat_quote (v : Nat) (h : Char.ofNat v = '"') : v = 34 := by
  have h34 : (Char.ofNat v).toNat = 34 := by
    rw [h]
    rfl
  rcases charOfNat_toNat_cases v with hc | hc <;> omega

theorem quoteByte : ∀ (bs : List Nat) (ost : Option U8St),
    (∀ st, ost = some st → StOk st) → Sum.inl '"' ∈ utf8Go ost bs → (34 : Nat) ∈ bs := by
  intro bs
  induction bs with
  | nil =>
    intro ost hok hmem
    cases ost with
    | none =>
      rw [utf8Go] at hmem
      cases hmem
    | some st =>
      rw [utf8Go] at hmem
      cases List.mem_singleton.mp hmem
  | cons b rest ih =>
    intro ost hok hmem
    cases ost with
    | none =>
      rw [utf8Go] at hmem
      cases hstart : u8Start b with
      | inl item =>
        rw [hstart] at hmem
        dsimp only at hmem
        rcases List.mem_cons.mp hmem with hm | hm
        · have hb := u8Start_quote b (by rw [hstart, ← hm])
          rw [hb]
          exact List.mem_cons_self 34 rest
        · exact List.mem_cons_of_mem b (ih none (fun st h2 => nomatch h2) hm)
      | inr st =>
        rw [hstart] at hmem
        dsimp only at hmem
        exact List.mem_cons_of_mem b
          (ih (some st) (fun st2 h2 => by cases h2; exact u8Start_StOk b st hstart) hmem)
    | some st =>
      have hst := hok st rfl
      rw [utf8Go] at hmem
      by_cases hcnt : st.lo ≤ b ∧ b ≤ st.hi
      · rw [if_pos hcnt] at hmem
        by_cases he1 : st.exp = 1
        · rw [if_pos he1] at hmem
          rcases List.mem_cons.mp hmem with hm | hm
          · have hv : Char.ofNat (st.cp * 64 + (b - 0x80)) = '"' := by
              injection hm.symm with hh
            have hcp := hst.1 he1
            have h34 := ofNat_quote _ hv
            omega
          · exact List.mem_cons_of_mem b (ih none (fun st2 h2 => nomatch h2) hm)
        · rw [if_neg he1] at hmem
          refine List.mem_cons_of_mem b (ih (some _) ?_ hmem)
          intro st2 h2
          cases h2
          have hcp2 : 1 ≤ st.cp * 64 + (b - 0x80) := by
            rcases hst.2 with h3 | h3 <;> omega
          exact ⟨fun _ => hcp2, Or.inl hcp2⟩
      · rw [if_neg hcnt] at hmem
        rcases List.mem_cons.mp hmem with hm | hm
        · cases hm
        · cases hstart : u8Start b with
          | inl item =>
            rw [hstart] at hm
            dsimp only at hm
            rcases List.mem_cons.mp hm with hm2 | hm2
            · have hb := u8Start_quote b (by rw [hstart, ← hm2])
              rw [hb]
              exact List.mem_cons_self 34 rest
            · exact List.mem_cons_of_mem b (ih none (fun st2 h2 => nomatch h2) hm2)
          | inr st2 =>
            rw [hstart] at hm
            dsimp only at hm
            exact List.mem_cons_of_mem b
              (ih (some st2) (fun st3 h3 => by cases h3; exact u8Start_StOk b st2 hstart) hm)

/-- Claim C9 as amended: reading rejects malformed UTF-8 with a
ReadError instead of tolerating it, because read_line validates its
bytes; on the write side, a field whose bytes contain no double-quote
byte is emitted verbatim (possibly wrapped in quotes when it contains
the delimiter), while the quote path of the writer re-encodes only the
valid chars and drops the bytes of invalid UTF-8 sequences, as the
concrete quoted field with a stray 0xFF byte shows. -/
theorem claim_C9_amended (d : Char) (field : List Nat) (h : ¬ (34 : Nat) ∈ field) :
    read_fieldsBytes ',' [255, 10] = Except.error CsvError.ReadError ∧
    (Writer.writeField d field = field ∨ Writer.writeField d field = 34 :: (field ++ [34])) ∧
    Writer.writeField ',' [34, 255] = [34, 34, 34, 34] := by
  refine ⟨rfl, ?_, rfl⟩
  have hnq : ¬ (validChars field).contains '"' = true := by
    intro hc
    apply h
    apply quoteByte field none (fun st h2 => nomatch h2)
    have hmemv : '"' ∈ validChars field := by simpa using hc
    unfold validChars at hmemv
    rcases List.mem_filterMap.mp hmemv with ⟨i, hi, hfi⟩
    cases i with
    | inl c =>
      have : c = '"' := by
        dsimp only at hfi
        injection hfi
      rw [← this]
      exact hi
    | inr _ => cases hfi
  unfold Writer.writeField
  rw [if_neg hnq]
  split
  · right
    rfl
  · left
    rfl

/-- Witness for the amended C9 at a concrete quote-free field. -/
theorem claim_C9_witness :
    Writer.writeField ',' [97] = [97] ∨ Writer.writeField ',' [97] = 34 :: ([97] ++ [34]) :=
  (claim_C9_amended ',' [97] (by decide)).2.1

/-- A row built by appending text fields through Row::add. -/
def buildRow (fields : List (List Char)) : Row := fields.foldl Row.add Row.new

/-- Counterexample for claim C1: the writer leaves a field containing a
line feed unquoted (it quotes only fields containing a quote or the
delimiter), so the serialized one-field row with text a-LF-b parses
back as a one-field row containing just a, with input left over: the
round trip fails on embedded newlines. -/
theorem claim_C1_cex :
    Writer.write none (buildRow [['a', '\n', 'b']]) = [97, 10, 98, 13, 10] ∧
    read_fieldsBytes ',' (Writer.write none (buildRow [['a', '\n', 'b']]))
      = Except.ok (buildRow [['a']], [LineRead.bytes [98, 13, 10]]) ∧
    buildRow [['a']] ≠ buildRow [['a', '\n', 'b']] :=
  ⟨rfl, rfl, by decide⟩

/-- Number of double quotes in a text. -/
def countQ : List Char → Nat
  | [] => 0
  | c :: cs => (if c = '"' then 1 else 0) + countQ cs

/-- Fields that survive the round trip: no line feed, no carriage
return, and no separator at or after the first double quote (after a
literal quote the parser leaves escaping mode, so a later separator
would split the field). -/
def goodField (sep : Char) (f : List Char) : Prop :=
  ¬ '\n' ∈ f ∧ ¬ '\r' ∈ f ∧ ¬ sep ∈ f.dropWhile (fun c => c != '"')

instance (sep : Char) (f : List Char) : Decidable (goodField sep f) := by
  unfold goodField
  infer_instance

/-- Char-level rendering of one serialized field, mirroring the writer
branches on text fields. -/
def serField (d : Char) (f : List Char) : List Char :=
  if '"' ∈ f then '"' :: (doubleQ f ++ ['"'])
  else if d ∈ f then '"' :: (f ++ ['"'])
  else f

/-- Char-level rendering of a serialized record body: fields joined by
the delimiter, none after the last. -/
def serFields (d : Char) : List (List Char) → List Char
  | [] => []
  | [f] => serField d f
  | f :: fs => serField d f ++ d :: serFields d fs

/-- Scanner conditions threaded through a quoted field body: no CR, no
LF, and no separator once a quote has been seen. -/
def noSpecial (sep : Char) : Bool → List Char → Prop
  | _, [] => True
  | seen, c :: cs =>
    c ≠ '\r' ∧ c ≠ '\n' ∧ (seen = true → c ≠ sep) ∧
      noSpecial sep (seen || decide (c = '"')) cs

theorem qfcNext_true (c : Char) (st : ScanSt) (hq : st.qfc = true) : qfcNext c st = true := by
  unfold qfcNext
  split
  · rfl
  · exact hq

theorem qfcNext_keep (c : Char) (st : ScanSt) (hc : c ≠ '"') : qfcNext c st = st.qfc := by
  unfold qfcNext
  rw [if_neg (fun h => hc h.1)]

theorem qfcNext_empty (st : ScanSt) (hfb : st.fb = []) : qfcNext '"' st = true := by
  unfold qfcNext
  rw [if_pos ⟨rfl, hfb⟩]

theorem qcNext_quote (st : ScanSt) : qcNext '"' st = st.qc + 1 := by
  unfold qcNext
  rw [if_pos rfl]

theorem qcNext_keep (c : Char) (st : ScanSt) (hc : c ≠ '"') : qcNext c st = st.qc := by
  unfold qcNext
  rw [if_neg hc]

theorem stepS1 (sep : Char) (st : ScanSt) (hfb : st.fb = []) (h0 : st.qc = 0) :
    scanStep sep '"' st = Sum.inr ⟨st.row, st.fb, true, st.qc + 1, true, st.ml⟩ := by
  unfold scanStep
  rw [qfcNext_empty st hfb, qcNext_quote st]
  rw [if_pos ⟨rfl, rfl⟩, if_pos (by omega)]

theorem stepS2 (sep : Char) (st : ScanSt) (hqfc : st.qfc = true) (hodd : st.qc % 2 = 1) :
    scanStep sep '"' st = Sum.inr ⟨st.row, st.fb, true, st.qc + 1, false, st.ml⟩ := by
  unfold scanStep
  rw [qfcNext_true '"' st hqfc, qcNext_quote st]
  rw [if_pos ⟨rfl, rfl⟩, if_neg (by omega), if_pos (by omega)]

theorem stepS3 (sep : Char) (st : ScanSt) (hqfc : st.qfc = true) (heven : st.qc % 2 = 0)
    (hpos : 0 < st.qc) :
    scanStep sep '"' st = Sum.inr ⟨st.row, st.fb ++ encodeChar '"', true, st.qc + 1, st.esc, st.ml⟩ := by
  unfold scanStep
  rw [qfcNext_true '"' st hqfc, qcNext_quote st]
  rw [if_pos ⟨rfl, rfl⟩, if_neg (by omega), if_neg (by omega)]

theorem stepS4 (sep c : Char) (st : ScanSt) (hq : c ≠ '"') (hs : c = sep → st.esc = true)
    (hcr : c ≠ '\r') (hlf : c ≠ '\n') :
    scanStep sep c st = Sum.inr ⟨st.row, st.fb ++ encodeChar c, st.qfc, st.qc, st.esc, st.ml⟩ := by
  unfold scanStep
  rw [qfcNext_keep c st hq, qcNext_keep c st hq]
  rw [if_neg (fun h => hq h.1)]
  by_cases hcs : c = sep
  · rw [if_pos hcs, if_pos (hs hcs)]
  · rw [if_neg hcs, if_neg hcr, if_neg hlf]

theorem stepS5 (sep : Char) (st : ScanSt) (hsq : sep ≠ '"') (hesc : st.esc = false) :
    scanStep sep sep st = Sum.inr ⟨st.row.add_bytes st.fb, [], false, 0, st.esc, st.ml⟩ := by
  unfold scanStep
  rw [if_neg (fun h => hsq h.1)]
  rw [if_pos rfl]
  rw [if_neg (by rw [hesc]; exact Bool.false_ne_true)]

theorem stepS6 (sep : Char) (st : ScanSt) (hesc : st.esc = false) (hsl : sep ≠ '\n') :
    scanStep sep '\n' st = Sum.inl (st.row.add_bytes st.fb) := by
  unfold scanStep
  rw [if_neg (fun h => absurd h.1 (by decide))]
  rw [if_neg (fun h => hsl h.symm)]
  rw [if_neg (by decide), if_pos rfl]
  rw [if_neg (by rw [hesc]; exact Bool.false_ne_true)]

theorem stepS7 (sep : Char) (st : ScanSt) (hscr : sep ≠ '\r') :
    scanStep sep '\r' st = Sum.inr ⟨st.row, st.fb, st.qfc, st.qc, st.esc, st.ml⟩ := by
  unfold scanStep
  rw [qfcNext_keep '\r' st (by decide), qcNext_keep '\r' st (by decide)]
  rw [if_neg (fun h => absurd h.1 (by decide))]
  rw [if_neg (fun h => hscr h.symm)]
  rw [if_pos rfl]

theorem scanLine_cons_inr (sep c : Char) (cs : List Char) (st st2 : ScanSt)
    (h : scanStep sep c st = Sum.inr st2) :
    scanLine sep (c :: cs) st = scanLine sep cs st2 := by
  rw [scanLine, h]

theorem scanLine_cons_inl (sep c : Char) (cs : List Char) (st : ScanSt) (row2 : Row)
    (h : scanStep sep c st = Sum.inl row2) :
    scanLine sep (c :: cs) st = ScanOut.done row2 := by
  rw [scanLine, h]

theorem doubleQ_nil : doubleQ [] = [] := rfl

theorem doubleQ_cons_quote (cs : List Char) : doubleQ ('"' :: cs) = '"' :: '"' :: doubleQ cs := by
  simp [doubleQ]

theorem doubleQ_cons_other (c : Char) (cs : List Char) (hc : c ≠ '"') :
    doubleQ (c :: cs) = c :: doubleQ cs := by
  simp [doubleQ, if_neg hc]

theorem encodeStr_cons (c : Char) (cs : List Char) :
    encodeStr (c :: cs) = encodeChar c ++ encodeStr cs := by
  simp [encodeStr]

theorem encodeStr_append (a b : List Char) : encodeStr (a ++ b) = encodeStr a ++ encodeStr b := by
  simp [encodeStr]

theorem scanQ (sep : Char) :
    ∀ (f cs : List Char) (row : Row) (fb : List Nat) (m : Nat) (ml : Bool),
      noSpecial sep (decide (0 < m)) f →
      scanLine sep (doubleQ f ++ cs) ⟨row, fb, true, 2 * m + 1, decide (m = 0), ml⟩ =
        scanLine sep cs
          ⟨row, fb ++ encodeStr f, true, 2 * (m + countQ f) + 1,
            decide (m + countQ f = 0), ml⟩ := by
  intro f
  induction f with
  | nil =>
    intro cs row fb m ml _
    rw [doubleQ_nil, List.nil_append]
    congr 1
    simp [encodeStr, countQ]
  | cons c cs2 ih =>
    intro cs row fb m ml hns
    obtain ⟨hcr, hlf, hsepc, hns2⟩ := hns
    by_cases hcq : c = '"'
    · subst hcq
      rw [show countQ ('"' :: cs2) = 1 + countQ cs2 from by simp [countQ]]
      rw [encodeStr_cons]
      rw [show fb ++ (encodeChar '"' ++ encodeStr cs2)
        = (fb ++ encodeChar '"') ++ encodeStr cs2 from (List.append_assoc _ _ _).symm]
      rw [show 2 * (m + (1 + countQ cs2)) + 1 = 2 * ((m + 1) + countQ cs2) + 1 from by omega]
      rw [show decide (m + (1 + countQ cs2) = 0) = decide ((m + 1) + countQ cs2 = 0) from
        decide_eq_decide.mpr (by omega)]
      rw [doubleQ_cons_quote, List.cons_append, List.cons_append]
      rw [scanLine_cons_inr sep '"' _ _ _ (stepS2 sep _ rfl (by dsimp only; omega))]
      rw [scanLine_cons_inr sep '"' _ _ _
        (stepS3 sep _ rfl (by dsimp only; omega) (by dsimp only; omega))]
      dsimp only
      rw [show 2 * m + 1 + 1 + 1 = 2 * (m + 1) + 1 from by omega]
      rw [show (false : Bool) = decide (m + 1 = 0) from by simp]
      have hseen : (decide (0 < m) || decide ('"' = '"')) = decide (0 < m + 1) := by simp
      rw [hseen] at hns2
      exact ih cs row (fb ++ encodeChar '"') (m + 1) ml hns2
    · rw [show countQ (c :: cs2) = countQ cs2 from by simp [countQ, hcq]]
      rw [encodeStr_cons]
      rw [show fb ++ (encodeChar c ++ encodeStr cs2)
        = (fb ++ encodeChar c) ++ encodeStr cs2 from (List.append_assoc _ _ _).symm]
      rw [doubleQ_cons_other c cs2 hcq, List.cons_append]
      have hs4 : c = sep →
          (⟨row, fb, true, 2 * m + 1, decide (m = 0), ml⟩ : ScanSt).esc = true := by
        intro hcs
        have hm0 : m = 0 := by
          by_contra hm
          exact hsepc (by simpa using Nat.pos_of_ne_zero hm) hcs
        simp [hm0]
      rw [scanLine_cons_inr sep c _ _ _ (stepS4 sep c _ hcq hs4 hcr hlf)]
      dsimp only
      have hseen : (decide (0 < m) || decide (c = '"')) = decide (0 < m) := by
        simp [hcq]
      rw [hseen] at hns2
      exact ih cs row (fb ++ encodeChar c) m ml hns2

theorem scanPlain (sep : Char) :
    ∀ (f cs : List Char) (row : Row) (fb : List Nat) (ml : Bool),
      ¬ '"' ∈ f → ¬ sep ∈ f → ¬ '\r' ∈ f → ¬ '\n' ∈ f →
      scanLine sep (f ++ cs) ⟨row, fb, false, 0, false, ml⟩ =
        scanLine sep cs ⟨row, fb ++ encodeStr f, false, 0, false, ml⟩ := by
  intro f
  induction f with
  | nil =>
    intro cs row fb ml _ _ _ _
    rw [List.nil_append]
    congr 1
    simp [encodeStr]
  | cons c cs2 ih =>
    intro cs row fb ml hq hs hcr hlf
    simp only [List.mem_cons, not_or] at hq hs hcr hlf
    rw [encodeStr_cons]
    rw [show fb ++ (encodeChar c ++ encodeStr cs2)
      = (fb ++ encodeChar c) ++ encodeStr cs2 from (List.append_assoc _ _ _).symm]
    rw [List.cons_append]
    rw [scanLine_cons_inr sep c _ _ _
      (stepS4 sep c _ (fun h => hq.1 h.symm) (fun h => absurd h.symm hs.1)
        (fun h => hcr.1 h.symm) (fun h => hlf.1 h.symm))]
    dsimp only
    exact ih cs row (fb ++ encodeChar c) ml hq.2 hs.2 hcr.2 hlf.2

theorem countQ_pos (f : List Char) (h : '"' ∈ f) : 0 < countQ f := by
  induction f with
  | nil => cases h
  | cons c cs ih =>
    rcases List.mem_cons.mp h with hc | hc
    · rw [countQ, if_pos hc.symm]
      omega
    · rw [countQ]
      have := ih hc
      omega

theorem goodField_noSpecial (sep : Char) :
    ∀ (f : List Char) (seen : Bool),
      ¬ '\n' ∈ f → ¬ '\r' ∈ f →
      (if seen then ¬ sep ∈ f else ¬ sep ∈ f.dropWhile (fun c => c != '"')) →
      noSpecial sep seen f := by
  intro f
  induction f with
  | nil =>
    intro seen _ _ _
    trivial
  | cons c cs ih =>
    intro seen hlf hcr hsep
    simp only [List.mem_cons, not_or] at hlf hcr
    cases seen with
    | true =>
      rw [if_pos rfl] at hsep
      simp only [List.mem_cons, not_or] at hsep
      refine ⟨fun h => hcr.1 h.symm, fun h => hlf.1 h.symm, fun _ h => hsep.1 h.symm, ?_⟩
      rw [Bool.true_or]
      exact ih true hlf.2 hcr.2 (by rw [if_pos rfl]; exact hsep.2)
    | false =>
      rw [if_neg (by simp)] at hsep
      by_cases hcq : c = '"'
      · rw [List.dropWhile_cons, if_neg (by simp [hcq])] at hsep
        simp only [List.mem_cons, not_or] at hsep
        refine ⟨fun h => hcr.1 h.symm, fun h => hlf.1 h.symm, fun h => (nomatch h), ?_⟩
        rw [show (false || decide (c = '"')) = true from by simp [hcq]]
        exact ih true hlf.2 hcr.2 (by rw [if_pos rfl]; exact hsep.2)
      · rw [List.dropWhile_cons, if_pos (by simp [hcq])] at hsep
        refine ⟨fun h => hcr.1 h.symm, fun h => hlf.1 h.symm, fun h => (nomatch h), ?_⟩
        rw [show (false || decide (c = '"')) = false from by simp [hcq]]
        exact ih false hlf.2 hcr.2 (by rw [if_neg (by simp)]; exact hsep)

theorem doubleQ_id (f : List Char) (h : ¬ '"' ∈ f) : doubleQ f = f := by
  induction f with
  | nil => rfl
  | cons c cs ih =>
    simp only [List.mem_cons, not_or] at h
    rw [doubleQ_cons_other c cs (fun hc => h.1 hc.symm), ih h.2]

theorem countQ_zero (f : List Char) (h : ¬ '"' ∈ f) : countQ f = 0 := by
  induction f with
  | nil => rfl
  | cons c cs ih =>
    simp only [List.mem_cons, not_or] at h
    rw [countQ, if_neg (fun hc => h.1 hc.symm), ih h.2]

theorem scanField (sep : Char) (f cs : List Char) (row : Row) (ml : Bool)
    (hg : goodField sep f) :
    ∃ qfc2 qc2, scanLine sep (serField sep f ++ cs) ⟨row, [], false, 0, false, ml⟩ =
      scanLine sep cs ⟨row, encodeStr f, qfc2, qc2, false, ml⟩ := by
  obtain ⟨hlf, hcr, hds⟩ := hg
  have hns : noSpecial sep (decide (0 < 0)) f := by
    have h2 := goodField_noSpecial sep f false hlf hcr (by rw [if_neg (by simp)]; exact hds)
    simpa using h2
  unfold serField
  by_cases hq : '"' ∈ f
  · rw [if_pos hq, List.cons_append]
    rw [scanLine_cons_inr sep '"' _ _ _ (stepS1 sep _ rfl rfl)]
    dsimp only
    rw [List.append_assoc]
    have hq1 := scanQ sep f (['"'] ++ cs) row [] 0 ml hns
    rw [show ((⟨row, [], true, 0 + 1, true, ml⟩ : ScanSt))
      = (⟨row, [], true, 2 * 0 + 1, decide ((0 : Nat) = 0), ml⟩ : ScanSt) from rfl]
    rw [hq1, List.nil_append]
    rw [show (0 + countQ f) = countQ f from by omega]
    rw [show (decide (countQ f = 0)) = false from
      decide_eq_false (by have h3 := countQ_pos f hq; omega)]
    rw [List.singleton_append]
    rw [scanLine_cons_inr sep '"' _ _ _ (stepS2 sep _ rfl (by dsimp only; omega))]
    dsimp only
    exact ⟨true, 2 * countQ f + 1 + 1, rfl⟩
  · rw [if_neg hq]
    by_cases hd : sep ∈ f
    · rw [if_pos hd, List.cons_append]
      rw [scanLine_cons_inr sep '"' _ _ _ (stepS1 sep _ rfl rfl)]
      dsimp only
      rw [List.append_assoc]
      have hq1 := scanQ sep f (['"'] ++ cs) row [] 0 ml hns
      rw [doubleQ_id f hq] at hq1
      rw [show ((⟨row, [], true, 0 + 1, true, ml⟩ : ScanSt))
        = (⟨row, [], true, 2 * 0 + 1, decide ((0 : Nat) = 0), ml⟩ : ScanSt) from rfl]
      rw [hq1, List.nil_append, countQ_zero f hq]
      rw [List.singleton_append]
      rw [scanLine_cons_inr sep '"' _ _ _ (stepS2 sep _ rfl (by dsimp only))]
      dsimp only
      exact ⟨true, 2 * (0 + 0) + 1 + 1, rfl⟩
    · rw [if_neg hd]
      rw [scanPlain sep f cs row [] ml hq hd hcr hlf, List.nil_append]
      exact ⟨false, 0, rfl⟩

theorem scanFields (sep : Char) (hsq : sep ≠ '"') (hscr : sep ≠ '\r') (hsl : sep ≠ '\n') :
    ∀ (fields : List (List Char)) (row : Row) (ml : Bool), fields ≠ [] →
      (∀ f ∈ fields, goodField sep f) →
      scanLine sep (serFields sep fields ++ ['\r', '\n']) ⟨row, [], false, 0, false, ml⟩ =
        ScanOut.done (fields.foldl Row.add row) := by
  intro fields
  induction fields with
  | nil =>
    intro row ml hne _
    exact absurd rfl hne
  | cons f fs ih =>
    intro row ml _ hgood
    cases fs with
    | nil =>
      rw [show serFields sep [f] = serField sep f from rfl]
      obtain ⟨qfc2, qc2, heq⟩ := scanField sep f ['\r', '\n'] row ml (hgood f (by simp))
      rw [heq]
      rw [scanLine_cons_inr sep '\r' _ _ _ (stepS7 sep _ hscr)]
      dsimp only
      rw [scanLine_cons_inl sep '\n' _ _ _ (stepS6 sep _ rfl hsl)]
      rfl
    | cons g gs =>
      rw [show serFields sep (f :: g :: gs)
        = serField sep f ++ sep :: serFields sep (g :: gs) from rfl]
      rw [List.append_assoc, List.cons_append]
      obtain ⟨qfc2, qc2, heq⟩ :=
        scanField sep f (sep :: (serFields sep (g :: gs) ++ ['\r', '\n'])) row ml
          (hgood f (by simp))
      rw [heq]
      rw [scanLine_cons_inr sep sep _ _ _ (stepS5 sep _ hsq rfl)]
      dsimp only
      exact ih (row.add_bytes (encodeStr f)) ml (by simp)
        (fun x hx => hgood x (by simp [hx]))

theorem encodeStr_doubleQ (f : List Char) :
    encodeStr (doubleQ f)
      = f.flatMap (fun c => if c = '"' then [34, 34] else encodeChar c) := by
  induction f with
  | nil => rfl
  | cons c cs ih =>
    by_cases hc : c = '"'
    · subst hc
      rw [doubleQ_cons_quote, encodeStr_cons, encodeStr_cons, List.flatMap_cons, if_pos rfl, ih]
      rfl
    · rw [doubleQ_cons_other c cs hc, encodeStr_cons, List.flatMap_cons, if_neg hc, ih]

theorem writeField_encodeStr (d : Char) (f : List Char) :
    Writer.writeField d (encodeStr f) = encodeStr (serField d f) := by
  unfold Writer.writeField serField
  rw [validChars_encodeStr]
  by_cases hq : '"' ∈ f
  · rw [if_pos (by simpa using hq), if_pos hq]
    rw [encodeStr_cons, encodeStr_append, encodeStr_doubleQ]
    rw [show encodeStr ['"'] = [34] from rfl, show encodeChar '"' = [34] from rfl]
    rw [List.singleton_append, List.cons_append]
  · rw [if_neg (by simpa using hq), if_neg hq]
    by_cases hd : d ∈ f
    · rw [if_pos (by simpa using hd), if_pos hd]
      rw [encodeStr_cons, encodeStr_append]
      rw [show encodeStr ['"'] = [34] from rfl, show encodeChar '"' = [34] from rfl]
      rw [List.singleton_append]
    · rw [if_neg (by simpa using hd), if_neg hd]

theorem foldl_add_spec (fields : List (List Char)) :
    ∀ r : Row,
      (fields.foldl Row.add r).inner = r.inner ++ (fields.map encodeStr).flatten ∧
      (fields.foldl Row.add r).ranges
        = r.ranges ++ mkRanges r.inner.length (fields.map fun f => (encodeStr f).length) ∧
      (fields.foldl Row.add r).delim = r.delim := by
  induction fields with
  | nil =>
    intro r
    refine ⟨by simp, by simp [mkRanges], rfl⟩
  | cons f fs ih =>
    intro r
    rw [List.foldl_cons]
    obtain ⟨h1, h2, h3⟩ := ih (r.add f)
    have hlen : (r.add f).inner.length = r.inner.length + (encodeStr f).length := by
      simp [Row.add, Row.add_bytes]
    refine ⟨?_, ?_, ?_⟩
    · rw [h1]
      simp [Row.add, Row.add_bytes, List.append_assoc]
    · rw [h2, hlen]
      simp [Row.add, Row.add_bytes, mkRanges, List.append_assoc]
    · rw [h3]
      rfl

theorem slice_mid (pre xs suf : List Nat) :
    ((pre ++ (xs ++ suf)).take (pre.length + xs.length)).drop pre.length = xs := by
  rw [← List.append_assoc]
  rw [List.take_left' (by rw [List.length_append])]
  rw [List.drop_left]


theorem writeBody_cons_ne (d : Char) (inner : List Nat) (s e : Nat) (rest : List (Nat × Nat))
    (h : rest ≠ []) :
    Writer.writeBody d inner ((s, e) :: rest)
      = Writer.writeField d ((inner.take e).drop s)
        ++ d.toNat % 256 :: Writer.writeBody d inner rest := by
  cases rest with
  | nil => exact absurd rfl h
  | cons p r2 => rfl

theorem encodeChar_ascii (d : Char) (hd : d.toNat < 0x80) : encodeChar d = [d.toNat] := by
  simp [encodeChar, hd]

theorem writeBody_ser (d : Char) (hd : d.toNat < 0x80) :
    ∀ (fields : List (List Char)) (pre suf : List Nat),
      Writer.writeBody d (pre ++ ((fields.map encodeStr).flatten ++ suf))
          (mkRanges pre.length (fields.map fun f => (encodeStr f).length))
        = encodeStr (serFields d fields) := by
  intro fields
  induction fields with
  | nil =>
    intro pre suf
    rfl
  | cons f fs ih =>
    intro pre suf
    cases fs with
    | nil =>
      rw [show ([f].map encodeStr).flatten = encodeStr f ++ [] from rfl, List.append_nil]
      rw [show [f].map (fun f2 => (encodeStr f2).length) = [(encodeStr f).length] from rfl]
      rw [mkRanges, mkRanges]
      rw [show Writer.writeBody d (pre ++ (encodeStr f ++ suf))
          [(pre.length, pre.length + (encodeStr f).length)]
        = Writer.writeField d
            (((pre ++ (encodeStr f ++ suf)).take
              (pre.length + (encodeStr f).length)).drop pre.length) from rfl]
      rw [slice_mid, writeField_encodeStr]
      rfl
    | cons g gs =>
      rw [show ((f :: g :: gs).map encodeStr).flatten
        = encodeStr f ++ ((g :: gs).map encodeStr).flatten from rfl]
      rw [show (f :: g :: gs).map (fun f2 => (encodeStr f2).length)
        = (encodeStr f).length :: (g :: gs).map (fun f2 => (encodeStr f2).length) from rfl]
      rw [mkRanges]
      rw [show (encodeStr f ++ ((g :: gs).map encodeStr).flatten) ++ suf
        = encodeStr f ++ (((g :: gs).map encodeStr).flatten ++ suf) from by
          rw [List.append_assoc]]
      rw [writeBody_cons_ne d _ _ _ _ (by simp [mkRanges])]
      rw [slice_mid, writeField_encodeStr]
      rw [show pre ++ (encodeStr f ++ (((g :: gs).map encodeStr).flatten ++ suf))
        = (pre ++ encodeStr f) ++ (((g :: gs).map encodeStr).flatten ++ suf) from by
          rw [List.append_assoc]]
      rw [show pre.length + (encodeStr f).length = (pre ++ encodeStr f).length from
        (List.length_append pre (encodeStr f)).symm]
      rw [ih (pre ++ encodeStr f) suf]
      rw [show serFields d (f :: g :: gs) = serField d f ++ d :: serFields d (g :: gs) from rfl]
      rw [encodeStr_append, encodeStr_cons, encodeChar_ascii d hd]
      rw [show d.toNat % 256 = d.toNat from Nat.mod_eq_of_lt (by omega)]
      rw [List.singleton_append]

theorem write_buildRow (fields : List (List Char)) :
    Writer.write none (buildRow fields) = encodeStr (serFields ',' fields) ++ [13, 10] := by
  unfold Writer.write buildRow
  obtain ⟨h1, h2, h3⟩ := foldl_add_spec fields Row.new
  rw [h1, h2, h3]
  rw [show (none : Option Char).getD Row.new.delim = ',' from rfl]
  rw [show Row.new.inner = ([] : List Nat) from rfl]
  rw [show Row.new.ranges = ([] : List (Nat × Nat)) from rfl]
  rw [List.nil_append, List.nil_append]
  rw [show (fields.map encodeStr).flatten
    = [] ++ ((fields.map encodeStr).flatten ++ []) from by simp]
  rw [writeBody_ser ',' (by decide) fields [] []]

theorem eq_lf_of_toNat (c : Char) (h10 : c.toNat = 10) : c = '\n' :=
  Char.ext (UInt32.toNat.inj h10)

theorem ten_not_in_encodeChar (c : Char) (h : c ≠ '\n') : ¬ (10 : Nat) ∈ encodeChar c := by
  unfold encodeChar
  by_cases h1 : c.toNat < 0x80
  · simp only [if_pos h1, List.mem_singleton]
    intro h10
    exact h (eq_lf_of_toNat c h10.symm)
  · by_cases h2 : c.toNat < 0x800
    · simp only [if_neg h1, if_pos h2, List.mem_cons, List.not_mem_nil, or_false]
      intro h10
      rcases h10 with h10 | h10 <;> omega
    · by_cases h3 : c.toNat < 0x10000
      · simp only [if_neg h1, if_neg h2, if_pos h3, List.mem_cons, List.not_mem_nil, or_false]
        intro h10
        rcases h10 with h10 | h10 | h10 <;> omega
      · simp only [if_neg h1, if_neg h2, if_neg h3, List.mem_cons, List.not_mem_nil, or_false]
        intro h10
        rcases h10 with h10 | h10 | h10 | h10 <;> omega

theorem ten_not_in_encodeStr (s : List Char) (h : ¬ '\n' ∈ s) : ¬ (10 : Nat) ∈ encodeStr s := by
  intro hmem
  obtain ⟨c, hcs, hce⟩ := List.mem_flatMap.mp hmem
  exact ten_not_in_encodeChar c (fun he => h (he ▸ hcs)) hce

theorem mem_doubleQ (f : List Char) (c : Char) (hc : c ∈ doubleQ f) : c = '"' ∨ c ∈ f := by
  unfold doubleQ at hc
  obtain ⟨a, haf, hca⟩ := List.mem_flatMap.mp hc
  by_cases ha : a = '"'
  · rw [if_pos ha] at hca
    exact Or.inl (by simpa using hca)
  · rw [if_neg ha] at hca
    right
    rw [show c = a from by simpa using hca]
    exact haf

theorem mem_serField (d : Char) (f : List Char) (c : Char) (hc : c ∈ serField d f) :
    c = '"' ∨ c ∈ f := by
  unfold serField at hc
  by_cases h1 : '"' ∈ f
  · rw [if_pos h1] at hc
    rcases List.mem_cons.mp hc with h | h
    · exact Or.inl h
    · rcases List.mem_append.mp h with h2 | h2
      · exact mem_doubleQ f c h2
      · exact Or.inl (by simpa using h2)
  · rw [if_neg h1] at hc
    by_cases h2 : d ∈ f
    · rw [if_pos h2] at hc
      rcases List.mem_cons.mp hc with h | h
      · exact Or.inl h
      · rcases List.mem_append.mp h with h3 | h3
        · exact Or.inr h3
        · exact Or.inl (by simpa using h3)
    · rw [if_neg h2] at hc
      exact Or.inr hc

theorem lf_not_in_serFields (sep : Char) (hsl : sep ≠ '\n') :
    ∀ fields, (∀ f ∈ fields, ¬ '\n' ∈ f) → ¬ '\n' ∈ serFields sep fields := by
  intro fields
  induction fields with
  | nil =>
    intro _
    simp [serFields]
  | cons f fs ih =>
    intro hall
    cases fs with
    | nil =>
      rw [show serFields sep [f] = serField sep f from rfl]
      intro hmem
      rcases mem_serField sep f '\n' hmem with h | h
      · exact absurd h (by decide)
      · exact hall f (by simp) h
    | cons g gs =>
      rw [show serFields sep (f :: g :: gs)
        = serField sep f ++ sep :: serFields sep (g :: gs) from rfl]
      intro hmem
      rcases List.mem_append.mp hmem with h | h
      · rcases mem_serField sep f '\n' h with h2 | h2
        · exact absurd h2 (by decide)
        · exact hall f (by simp) h2
      · rcases List.mem_cons.mp h with h2 | h2
        · exact hsl h2.symm
        · exact ih (fun x hx => hall x (by simp [hx])) h2

theorem splitLines_single (ys : List Nat) (h : ¬ (10 : Nat) ∈ ys) :
    splitLines (ys ++ [10]) = [ys ++ [10]] := by
  induction ys with
  | nil => rfl
  | cons b ys2 ih =>
    have hb : b ≠ 10 := fun he => h (by simp [he])
    have h2 : ¬ (10 : Nat) ∈ ys2 := fun hm => h (by simp [hm])
    rw [List.cons_append, splitLines, if_neg hb, ih h2]

/-- Claim C1 (amended): the write/parse round trip holds on the class of
rows whose fields contain no line feed, no carriage return, and no
separator at or after the first double quote.  For such a non-empty
field list, writing the row built from it with the default comma
delimiter and parsing the emitted bytes back returns exactly that row
with no leftover input.  (The unrestricted claim is refuted by
claim_C1_cex: a field containing a line feed is written unquoted and
the round trip truncates it.) -/
theorem claim_C1_roundtrip (fields : List (List Char)) (hne : fields ≠ [])
    (hgood : ∀ f ∈ fields, goodField ',' f) :
    read_fieldsBytes ',' (Writer.write none (buildRow fields))
      = Except.ok (buildRow fields, []) := by
  have hnl : ¬ '\n' ∈ serFields ',' fields :=
    lf_not_in_serFields ',' (by decide) fields (fun f hf => (hgood f hf).1)
  have h10 : ¬ (10 : Nat) ∈ encodeStr (serFields ',' fields) ++ [13] := by
    intro hm
    rcases List.mem_append.mp hm with h | h
    · exact ten_not_in_encodeStr _ hnl h
    · simp at h
  rw [write_buildRow]
  unfold read_fieldsBytes read_fields linesOf
  rw [show encodeStr (serFields ',' fields) ++ [13, 10]
    = (encodeStr (serFields ',' fields) ++ [13]) ++ [10] from by
      rw [List.append_assoc]
      rfl]
  rw [splitLines_single _ h10]
  rw [List.map_cons, List.map_nil]
  rw [rfLoop]
  rw [show (encodeStr (serFields ',' fields) ++ [13]) ++ [10]
    = encodeStr (serFields ',' fields ++ ['\r', '\n']) from by
      rw [encodeStr_append, List.append_assoc]
      rfl]
  rw [decodeChars_encodeStr]
  dsimp only
  rw [scanFields ',' (by decide) (by decide) (by decide) fields Row.new false hne hgood]
  rfl

/-- Witness for the amended C1 at the single field "x". -/
theorem claim_C1_witness :
    [['x']] ≠ ([] : List (List Char)) ∧ (∀ f ∈ [['x']], goodField ',' f) ∧
    read_fieldsBytes ',' (Writer.write none (buildRow [['x']]))
      = Except.ok (buildRow [['x']], []) :=
  ⟨by decide, by decide, claim_C1_roundtrip [['x']] (by decide) (by decide)⟩
